import Mathlib

/-!
Verification of the `rs-nuid` generator (`src/lib.rs`) against its
natural-language specification.  The Rust code is shallowly embedded:
machine `u64` arithmetic is `Nat` with an explicit `% 2 ^ 64` where the
source performs unchecked addition, byte buffers are `List Nat` of byte
values, and the two randomness sources (`OsRng` sampling `Alphanumeric`,
and `thread_rng().gen_range`) are modelled by explicit draw parameters.
-/

/-- `const BASE: usize = 62`. -/
def BASE : Nat := 62

/-- `const ALPHABET: [u8; BASE] = *b"0123...z"`, as the list of byte values. -/
def ALPHABET : List Nat :=
  "0123456789ABCDEFGHIJKLMNOPQRSTUVWXYZabcdefghijklmnopqrstuvwxyz".toList.map Char.toNat

/-- `const PRE_LEN: usize = 12`. -/
def PRE_LEN : Nat := 12

/-- `const MAX_SEQ: u64 = 839_299_365_868_340_224` (= 62^10). -/
def MAX_SEQ : Nat := 839299365868340224

/-- `const MIN_INC: u64 = 33`. -/
def MIN_INC : Nat := 33

/-- `const MAX_INC: u64 = 333`. -/
def MAX_INC : Nat := 333

/-- `pub const TOTAL_LEN: usize = 22`. -/
def TOTAL_LEN : Nat := 22

/-- The number of values of a `u64`; unchecked `u64` addition is addition mod this. -/
def U64_CARD : Nat := 2 ^ 64

/-- Modelled from the `rand` crate: the byte values the `Alphanumeric`
distribution can yield, namely the ASCII codes of `A-Z`, `a-z`, `0-9`
(the charset used by `rand`'s sampler). -/
def alnumCharset : List Nat :=
  "ABCDEFGHIJKLMNOPQRSTUVWXYZabcdefghijklmnopqrstuvwxyz0123456789".toList.map Char.toNat

/-- Modelled from the `rand` crate: one `Alphanumeric` sample, parametrised by a
raw nondeterministic draw `raw`; every charset byte is reached by some draw and
no other byte is reachable. -/
def sampleAlphanumeric (raw : Nat) : Nat :=
  alnumCharset.getD (raw % alnumCharset.length) 0

/-- Modelled from the `rand` crate: `gen_range(lo..hi)` returns a value in
`[lo, hi)`, parametrised by a raw nondeterministic draw. -/
def genRange (lo hi raw : Nat) : Nat := lo + raw % (hi - lo)

/-- `pub struct NUID { pre: [u8; PRE_LEN], seq: u64, inc: u64 }`. -/
structure NUID where
  pre : List Nat
  seq : Nat
  inc : Nat
deriving DecidableEq

/-- The nondeterministic draws one `next` call may consume: a stream for the
`Alphanumeric` prefix samples and one raw draw for each `gen_range` call. -/
structure RandSrc where
  pr : Nat → Nat
  sr : Nat
  ir : Nat

/-- `NUID::new()`: all-zero prefix, `seq = MAX_SEQ`, `inc = 0`. -/
def NUID.new : NUID :=
  { pre := List.replicate PRE_LEN 0, seq := MAX_SEQ, inc := 0 }

/-- `NUID::randomize_prefix`: each prefix byte `i` becomes
`ALPHABET[n as usize % BASE]` where `n` is the `i`-th `Alphanumeric` sample. -/
def randomize_prefix (r : Nat → Nat) (g : NUID) : NUID :=
  { g with pre := (List.range PRE_LEN).map fun i => ALPHABET.getD (sampleAlphanumeric (r i) % BASE) 0 }

/-- `NUID::reset_sequential`: `seq = rng.gen_range(0..MAX_SEQ)`,
`inc = rng.gen_range(MIN_INC..MAX_INC)`. -/
def reset_sequential (sr ir : Nat) (g : NUID) : NUID :=
  { g with seq := genRange 0 MAX_SEQ sr, inc := genRange MIN_INC MAX_INC ir }

/-- The backward encoding loop of `NUID::next`:
`for i in (PRE_LEN..TOTAL_LEN).rev() { buffer[i] = ALPHABET[l % BASE]; l /= BASE; }`.
`encLoop n l` is the block of `n` buffer bytes the loop writes, in buffer order. -/
def encLoop : Nat → Nat → List Nat
  | 0, _ => []
  | n + 1, l => encLoop n (l / BASE) ++ [ALPHABET.getD (l % BASE) 0]

/-- The tail of `NUID::next` once the state is settled: copy the prefix into the
buffer and encode the sequence into the remaining bytes. -/
def emit (g : NUID) : NUID × List Nat :=
  (g, g.pre ++ encLoop (TOTAL_LEN - PRE_LEN) g.seq)

/-- `NUID::next`: add `inc` to `seq` (u64 addition), on `seq >= MAX_SEQ` run
`randomize_prefix` then `reset_sequential`, then build the 22-byte buffer.
Returns the post-call state together with the emitted buffer. -/
def NUID.next (r : RandSrc) (g : NUID) : NUID × List Nat :=
  emit (if MAX_SEQ ≤ (g.seq + g.inc) % U64_CARD then
          reset_sequential r.sr r.ir
            ( randomize_prefix r.pr { g with seq := (g.seq + g.inc) % U64_CARD })
        else { g with seq := (g.seq + g.inc) % U64_CARD })

/-- Specification-side definition (from the spec's words, for refinement):
fixed-width big-endian place-value base-62 rendering of `s` over `w` digits,
most significant digit first. -/
def bigEndianBase62 (w s : Nat) : List Nat :=
  (List.range w).map fun i => ALPHABET.getD (s / BASE ^ (w - 1 - i) % BASE) 0

/-- Decoding of a buffer block: each byte's index in `ALPHABET` read as a
base-62 digit, most significant first. -/
def decodeBase62 (bs : List Nat) : Nat :=
  bs.foldl (fun acc b => acc * BASE + ALPHABET.indexOf b) 0

/-- States reachable from `NUID::new()` by any number of `next` calls. -/
inductive Reachable : NUID → Prop
  | base : Reachable NUID.new
  | step (r : RandSrc) (g : NUID) : Reachable g → Reachable (NUID.next r g).1

-- sanity checks (concrete evaluation of the embedding)
example : ALPHABET.length = 62 := by decide
example : alnumCharset.length = 62 := by decide
example : encLoop 10 0 = List.replicate 10 48 := by decide
example : encLoop 10 61 = List.replicate 9 48 ++ [122] := by decide
example : decodeBase62 (encLoop 10 12345) = 12345 := by decide

/-! ### Basic helper lemmas -/

lemma getD_mem_of_lt {xs : List Nat} {k : Nat} (d : Nat) (h : k < xs.length) :
    xs.getD k d ∈ xs := by
  induction xs generalizing k with
  | nil => simp at h
  | cons a t ih =>
    cases k with
    | zero => simp [List.getD]
    | succ k =>
      simp only [List.getD_cons_succ]
      exact List.mem_cons_of_mem a (ih (by simpa using h))

lemma alphabet_length : ALPHABET.length = 62 := by decide

lemma getD_alphabet_mem (k d : Nat) : ALPHABET.getD (k % BASE) d ∈ ALPHABET := by
  apply getD_mem_of_lt
  rw [alphabet_length]
  exact Nat.mod_lt _ (by decide)

lemma encLoop_length (n l : Nat) : (encLoop n l).length = n := by
  induction n generalizing l with
  | zero => rfl
  | succ n ih => simp [encLoop, ih]

lemma encLoop_mem {n l : Nat} : ∀ b ∈ encLoop n l, b ∈ ALPHABET := by
  induction n generalizing l with
  | zero => simp [encLoop]
  | succ n ih =>
    intro b hb
    rcases List.mem_append.1 hb with h | h
    · exact ih _ h
    · simp only [List.mem_singleton] at h
      exact h ▸ getD_alphabet_mem l 0

lemma randomize_prefix_pre (r : Nat → Nat) (g : NUID) :
    ( randomize_prefix r g).pre =
      (List.range PRE_LEN).map fun i => ALPHABET.getD (sampleAlphanumeric (r i) % BASE) 0 := rfl

lemma randomize_prefix_len (r : Nat → Nat) (g : NUID) :
    ( randomize_prefix r g).pre.length = PRE_LEN := by
  simp [ randomize_prefix_pre]

lemma randomize_prefix_mem (r : Nat → Nat) (g : NUID) :
    ∀ b ∈ ( randomize_prefix r g).pre, b ∈ ALPHABET := by
  intro b hb
  rw [ randomize_prefix_pre] at hb
  rcases List.mem_map.1 hb with ⟨i, _, rfl⟩
  exact getD_alphabet_mem _ 0

lemma max_seq_lt_u64 : MAX_SEQ < U64_CARD := by decide

lemma max_seq_pos : 0 < MAX_SEQ := by decide

/-! ### Case analysis of `NUID.next` -/

lemma next_rollover (r : RandSrc) (g : NUID)
    (h : MAX_SEQ ≤ (g.seq + g.inc) % U64_CARD) :
    NUID.next r g =
      emit (reset_sequential r.sr r.ir
        ( randomize_prefix r.pr { g with seq := (g.seq + g.inc) % U64_CARD })) := by
  rw [NUID.next, if_pos h]

lemma next_no_rollover (r : RandSrc) (g : NUID)
    (h : (g.seq + g.inc) % U64_CARD < MAX_SEQ) :
    NUID.next r g = emit { g with seq := (g.seq + g.inc) % U64_CARD } := by
  rw [NUID.next, if_neg (Nat.not_le.2 h)]

/-- The state invariant that holds after every `next` call: prefix is 12
alphabet bytes, the sequence is in range, the increment is in range. -/
def GoodState (g : NUID) : Prop :=
  g.pre.length = PRE_LEN ∧ (∀ b ∈ g.pre, b ∈ ALPHABET) ∧
  g.seq < MAX_SEQ ∧ MIN_INC ≤ g.inc ∧ g.inc < MAX_INC

lemma goodState_rollover (sr ir : Nat) (pr : Nat → Nat) (g : NUID) :
    GoodState (reset_sequential sr ir ( randomize_prefix pr g)) := by
  refine ⟨ randomize_prefix_len pr g, randomize_prefix_mem pr g, ?_, ?_, ?_⟩
  · show genRange 0 MAX_SEQ sr < MAX_SEQ
    simpa [genRange] using Nat.mod_lt sr max_seq_pos
  · show MIN_INC ≤ genRange MIN_INC MAX_INC ir
    simp [genRange]
  · show genRange MIN_INC MAX_INC ir < MAX_INC
    have h : ir % (MAX_INC - MIN_INC) < MAX_INC - MIN_INC := Nat.mod_lt ir (by decide)
    simp only [genRange]
    omega

lemma next_goodState (r : RandSrc) (g : NUID) (hg : g = NUID.new ∨ GoodState g) :
    GoodState (NUID.next r g).1 := by
  rcases Nat.lt_or_ge ((g.seq + g.inc) % U64_CARD) MAX_SEQ with h | h
  · rw [next_no_rollover r g h]
    rcases hg with rfl | ⟨h1, h2, h3, h4, h5⟩
    · exfalso
      have : (NUID.new.seq + NUID.new.inc) % U64_CARD = MAX_SEQ := by
        show (MAX_SEQ + 0) % U64_CARD = MAX_SEQ
        simp [Nat.mod_eq_of_lt max_seq_lt_u64]
      omega
    · exact ⟨h1, h2, h, h4, h5⟩
  · rw [next_rollover r g h]
    exact goodState_rollover _ _ _ _

lemma reachable_inv {g : NUID} (h : Reachable g) : g = NUID.new ∨ GoodState g := by
  induction h with
  | base => exact Or.inl rfl
  | step r g' _ ih => exact Or.inr (next_goodState r g' ih)

/-! ### The encoding loop versus the big-endian place-value rendering -/

lemma encLoop_eq_bigEndian (w s : Nat) : encLoop w s = bigEndianBase62 w s := by
  induction w generalizing s with
  | zero => simp [encLoop, bigEndianBase62]
  | succ w ih =>
    rw [encLoop, ih]
    simp only [bigEndianBase62]
    rw [List.range_succ, List.map_append]
    congr 1
    · apply List.map_congr_left
      intro i hi
      have hiw : i < w := List.mem_range.1 hi
      rw [Nat.div_div_eq_div_mul, ← pow_succ']
      have h1 : w - 1 - i + 1 = w + 1 - 1 - i := by omega
      rw [h1]
    · simp

lemma seq_digit_roundtrip :
    ∀ k, k < BASE → ALPHABET.indexOf (ALPHABET.getD k 0) = k := by decide

lemma decode_append_singleton (xs : List Nat) (b : Nat) :
    decodeBase62 (xs ++ [b]) = decodeBase62 xs * BASE + ALPHABET.indexOf b := by
  simp [decodeBase62, List.foldl_append]

lemma decode_encLoop (w : Nat) : ∀ s, s < BASE ^ w → decodeBase62 (encLoop w s) = s := by
  induction w with
  | zero =>
    intro s hs
    have h0 : s = 0 := by
      have h1 : s < 1 := by simpa using hs
      omega
    subst h0
    rfl
  | succ w ih =>
    intro s hs
    have hdiv : s / BASE < BASE ^ w := by
      rw [Nat.div_lt_iff_lt_mul (by decide : (0:Nat) < BASE)]
      rw [pow_succ] at hs
      exact hs
    rw [encLoop, decode_append_singleton, ih _ hdiv,
      seq_digit_roundtrip _ (Nat.mod_lt s (by decide))]
    exact Nat.div_add_mod' s BASE

lemma max_seq_eq_pow : MAX_SEQ = BASE ^ 10 := by decide

/-! ### The emitted buffer -/

lemma reset_sequential_pre {sr ir : Nat} {g : NUID} :
    (reset_sequential sr ir g).pre = g.pre := rfl

lemma emit_snd (g : NUID) : (emit g).2 = g.pre ++ encLoop (TOTAL_LEN - PRE_LEN) g.seq := rfl

lemma emit_fst {g : NUID} : (emit g).1 = g := rfl

lemma emit_snd_length (g : NUID) (h : g.pre.length = PRE_LEN) :
    (emit g).2.length = TOTAL_LEN := by
  rw [emit_snd, List.length_append, h, encLoop_length]
  decide

lemma emit_snd_take (g : NUID) (h : g.pre.length = PRE_LEN) :
    (emit g).2.take PRE_LEN = g.pre := by
  rw [emit_snd, ← h, List.take_left]

lemma emit_snd_drop (g : NUID) (h : g.pre.length = PRE_LEN) :
    (emit g).2.drop PRE_LEN = encLoop (TOTAL_LEN - PRE_LEN) g.seq := by
  rw [emit_snd, ← h, List.drop_left]

lemma next_pre_length (r : RandSrc) (g : NUID) (h : g.pre.length = PRE_LEN) :
    (NUID.next r g).1.pre.length = PRE_LEN := by
  rcases Nat.lt_or_ge ((g.seq + g.inc) % U64_CARD) MAX_SEQ with hc | hc
  · rw [next_no_rollover r g hc, emit_fst]
    exact h
  · rw [next_rollover r g hc, emit_fst, reset_sequential_pre]
    exact randomize_prefix_len _ _

lemma next_seq_lt (r : RandSrc) (g : NUID) : (NUID.next r g).1.seq < MAX_SEQ := by
  rcases Nat.lt_or_ge ((g.seq + g.inc) % U64_CARD) MAX_SEQ with hc | hc
  · rw [next_no_rollover r g hc, emit_fst]
    exact hc
  · rw [next_rollover r g hc, emit_fst]
    show genRange 0 MAX_SEQ r.sr < MAX_SEQ
    simpa [genRange] using Nat.mod_lt r.sr max_seq_pos

lemma next_eq_emit_fst (r : RandSrc) (g : NUID) :
    NUID.next r g = emit (NUID.next r g).1 := by
  rcases Nat.lt_or_ge ((g.seq + g.inc) % U64_CARD) MAX_SEQ with hc | hc
  · rw [next_no_rollover r g hc, emit_fst]
  · rw [next_rollover r g hc, emit_fst]

lemma next_snd (r : RandSrc) (g : NUID) :
    (NUID.next r g).2 =
      (NUID.next r g).1.pre ++ encLoop (TOTAL_LEN - PRE_LEN) (NUID.next r g).1.seq := by
  conv_lhs => rw [next_eq_emit_fst r g]
  exact emit_snd _

lemma alnum_length : alnumCharset.length = 62 := by decide

lemma sample_mem (x : Nat) : sampleAlphanumeric x ∈ alnumCharset :=
  getD_mem_of_lt 0 (Nat.mod_lt x (by decide))

/-- The ten alphabet symbols `randomize_prefix` can never place in a prefix
byte: the codes of the characters 0, 1, 2, T, U, V, W, X, Y, z. -/
def forbiddenPrefixBytes : List Nat := [48, 49, 50, 84, 85, 86, 87, 88, 89, 122]

lemma alnum_image_ok :
    ∀ c ∈ alnumCharset,
      ALPHABET.getD (c % BASE) 0 ∈ ALPHABET ∧
      ALPHABET.getD (c % BASE) 0 ∉ forbiddenPrefixBytes := by decide

/-- Fixed random draw used to instantiate the theorems at concrete inputs. -/
def rc0 : RandSrc := ⟨fun _ => 0, 0, 0⟩

/-- A second, different fixed random draw. -/
def rc1 : RandSrc := ⟨fun _ => 1, 7, 9⟩

/-- A concrete in-range state: alphabet prefix, small sequence, small increment. -/
def gSmall : NUID := ⟨List.replicate PRE_LEN 48, 5, 33⟩

/-- A concrete state at the rollover threshold whose prefix happens to coincide
with the prefix `randomize_prefix` produces under the draw `rc0`. -/
def gStuck : NUID := ⟨List.replicate PRE_LEN 51, MAX_SEQ, 0⟩

/-! ### Claims -/

/-- C1: every `NUID::next` call returns exactly 22 bytes whose first 12 bytes
are the generator's prefix at emission time (after any rollover) and whose last
10 bytes are the fixed-width big-endian base-62 place-value encoding of the
post-call sequence value; encoding 0 gives ten `0` bytes and encoding 61 gives
nine `0` bytes followed by `z`. -/
theorem nuid_next_output_layout (r : RandSrc) (g : NUID) (h : g.pre.length = PRE_LEN) :
    (NUID.next r g).2.length = TOTAL_LEN ∧
    (NUID.next r g).2.take PRE_LEN = (NUID.next r g).1.pre ∧
    (NUID.next r g).2.drop PRE_LEN =
      bigEndianBase62 (TOTAL_LEN - PRE_LEN) (NUID.next r g).1.seq ∧
    bigEndianBase62 (TOTAL_LEN - PRE_LEN) 0 = List.replicate 10 48 ∧
    bigEndianBase62 (TOTAL_LEN - PRE_LEN) 61 = List.replicate 9 48 ++ [122] := by
  have hlen := next_pre_length r g h
  have h1 := emit_snd_length (NUID.next r g).1 hlen
  have h2 := emit_snd_take (NUID.next r g).1 hlen
  have h3 := emit_snd_drop (NUID.next r g).1 hlen
  rw [← next_eq_emit_fst r g] at h1 h2 h3
  refine ⟨h1, h2, ?_, by decide, by decide⟩
  rw [h3, encLoop_eq_bigEndian]

/-- C1 witness: the layout theorem evaluated on the fresh generator and a
concrete random draw. -/
theorem nuid_next_output_layout_witness :
    NUID.new.pre.length = PRE_LEN ∧ (NUID.next rc0 NUID.new).2.length = TOTAL_LEN :=
  ⟨by decide, (nuid_next_output_layout rc0 NUID.new (by decide)).1⟩

/-- C2: from any reachable state, every byte of the identifier `NUID::next`
emits is a member of the 62-symbol alphabet, and every alphabet byte is
printable ASCII, justifying the unchecked text view. -/
theorem nuid_output_alphabet (r : RandSrc) (g : NUID) (hg : Reachable g) :
    (∀ b ∈ (NUID.next r g).2, b ∈ ALPHABET) ∧ (∀ b ∈ ALPHABET, 32 ≤ b ∧ b < 127) := by
  refine ⟨?_, by decide⟩
  intro b hb
  rw [next_snd] at hb
  rcases List.mem_append.1 hb with hb | hb
  · exact (next_goodState r g (reachable_inv hg)).2.1 b hb
  · exact encLoop_mem b hb

/-- C2 witness: the alphabet theorem applied to the fresh generator, checked on
the byte 51 of the emitted identifier. -/
theorem nuid_output_alphabet_witness :
    51 ∈ (NUID.next rc0 NUID.new).2 ∧ 51 ∈ ALPHABET :=
  ⟨by decide, (nuid_output_alphabet rc0 NUID.new Reachable.base).1 51 (by decide)⟩

/-- C3: after every `NUID::next` call the sequence field is strictly below
`MAX_SEQ`; on the rollover branch the new increment lies in `[MIN_INC, MAX_INC)`,
and the increment range is preserved by non-rollover calls, so it holds whenever
an identifier is emitted after at least one rollover. -/
theorem nuid_seq_inc_bounds (r : RandSrc) (g : NUID) :
    (NUID.next r g).1.seq < MAX_SEQ ∧
    (MAX_SEQ ≤ (g.seq + g.inc) % U64_CARD →
      MIN_INC ≤ (NUID.next r g).1.inc ∧ (NUID.next r g).1.inc < MAX_INC) ∧
    (MIN_INC ≤ g.inc ∧ g.inc < MAX_INC →
      MIN_INC ≤ (NUID.next r g).1.inc ∧ (NUID.next r g).1.inc < MAX_INC) := by
  refine ⟨next_seq_lt r g, ?_, ?_⟩
  · intro hc
    rw [next_rollover r g hc, emit_fst]
    have hgood := goodState_rollover r.sr r.ir r.pr { g with seq := (g.seq + g.inc) % U64_CARD }
    exact ⟨hgood.2.2.2.1, hgood.2.2.2.2⟩
  · rintro ⟨h1, h2⟩
    rcases Nat.lt_or_ge ((g.seq + g.inc) % U64_CARD) MAX_SEQ with hc | hc
    · rw [next_no_rollover r g hc, emit_fst]
      exact ⟨h1, h2⟩
    · rw [next_rollover r g hc, emit_fst]
      have hgood := goodState_rollover r.sr r.ir r.pr { g with seq := (g.seq + g.inc) % U64_CARD }
      exact ⟨hgood.2.2.2.1, hgood.2.2.2.2⟩

/-- C3 witness: the bounds theorem evaluated on the fresh generator, whose
first call rolls over. -/
theorem nuid_seq_inc_bounds_witness :
    (NUID.next rc0 NUID.new).1.seq < MAX_SEQ ∧
    MIN_INC ≤ (NUID.next rc0 NUID.new).1.inc ∧ (NUID.next rc0 NUID.new).1.inc < MAX_INC :=
  ⟨(nuid_seq_inc_bounds rc0 NUID.new).1, (nuid_seq_inc_bounds rc0 NUID.new).2.1 (by decide)⟩

/-- C4: when `sequence + increment < MAX_SEQ`, one `next` call keeps the prefix
and increment unchanged, sets the sequence to exactly the old sequence plus the
increment, and consumes no randomness (the call result does not depend on the
random source). -/
theorem nuid_next_no_rollover_frame (r r' : RandSrc) (g : NUID)
    (h : g.seq + g.inc < MAX_SEQ) :
    (NUID.next r g).1.pre = g.pre ∧ (NUID.next r g).1.inc = g.inc ∧
    (NUID.next r g).1.seq = g.seq + g.inc ∧ NUID.next r g = NUID.next r' g := by
  have hmod : (g.seq + g.inc) % U64_CARD = g.seq + g.inc :=
    Nat.mod_eq_of_lt (lt_trans h max_seq_lt_u64)
  have hc : (g.seq + g.inc) % U64_CARD < MAX_SEQ := by
    rw [hmod]
    exact h
  rw [next_no_rollover r g hc, next_no_rollover r' g hc, emit_fst]
  exact ⟨rfl, rfl, hmod, rfl⟩

/-- C4 witness: the frame theorem evaluated on a concrete small state with two
different random draws. -/
theorem nuid_next_no_rollover_frame_witness :
    gSmall.seq + gSmall.inc < MAX_SEQ ∧ NUID.next rc0 gSmall = NUID.next rc1 gSmall :=
  ⟨by decide, (nuid_next_no_rollover_frame rc0 rc1 gSmall (by decide)).2.2.2⟩

/-- C5 counterexample: a state whose sequence is at `MAX_SEQ` but whose prefix
coincides byte-for-byte with the prefix the rollover draws, so the claim that
one `next` call on any such state "must change the prefix away from its prior
value" is false at this input. -/
theorem nuid_forced_rollover_counterexample :
    gStuck.seq = MAX_SEQ ∧ (NUID.next rc0 gStuck).1.pre = gStuck.pre :=
  ⟨rfl, by decide⟩

/-- C5 (amended): `NUID::new` is the all-zero-prefix sentinel with
`seq = MAX_SEQ` and `inc = 0`; any state whose sequence is at `MAX_SEQ` (and
whose addition does not wrap) takes the rollover path, running
`randomize_prefix` then `reset_sequential`, and the prefix changes whenever the
prior prefix holds a byte outside the alphabet — in particular for the fresh
all-zero prefix. -/
theorem nuid_forced_rollover_amended (r : RandSrc) (g : NUID)
    (h : g.seq = MAX_SEQ) (hnw : g.seq + g.inc < U64_CARD) :
    NUID.new = { pre := List.replicate PRE_LEN 0, seq := MAX_SEQ, inc := 0 } ∧
    NUID.next r g =
      emit (reset_sequential r.sr r.ir
        ( randomize_prefix r.pr { g with seq := g.seq + g.inc })) ∧
    ((∃ b ∈ g.pre, b ∉ ALPHABET) → (NUID.next r g).1.pre ≠ g.pre) := by
  have hmod : (g.seq + g.inc) % U64_CARD = g.seq + g.inc := Nat.mod_eq_of_lt hnw
  have hc : MAX_SEQ ≤ (g.seq + g.inc) % U64_CARD := by
    rw [hmod, h]
    exact Nat.le_add_right _ _
  refine ⟨rfl, ?_, ?_⟩
  · rw [next_rollover r g hc, hmod]
  · rintro ⟨b, hb, hnb⟩ heq
    apply hnb
    have hmem : b ∈ (NUID.next r g).1.pre := heq ▸ hb
    rw [next_rollover r g hc, emit_fst, reset_sequential_pre] at hmem
    exact randomize_prefix_mem r.pr _ b hmem

/-- C5 witness: the amended theorem evaluated on the fresh generator: its first
call rolls over and replaces the all-zero prefix. -/
theorem nuid_forced_rollover_amended_witness :
    NUID.new.seq = MAX_SEQ ∧ NUID.new.seq + NUID.new.inc < U64_CARD ∧
    (NUID.next rc0 NUID.new).1.pre ≠ NUID.new.pre :=
  ⟨rfl, by decide,
    (nuid_forced_rollover_amended rc0 NUID.new rfl (by decide)).2.2 ⟨0, by decide, by decide⟩⟩

/-- C6: on every state reachable from `NUID::new` by `next` calls, the call
starts with `seq ≤ MAX_SEQ` and `inc < MAX_INC`, so the unguarded 64-bit
addition `seq + inc` stays below `2^64` and its wraparound branch is
unreachable. -/
theorem nuid_no_overflow (g : NUID) (hg : Reachable g) :
    g.seq ≤ MAX_SEQ ∧ g.inc < MAX_INC ∧ g.seq + g.inc < U64_CARD ∧
    (g.seq + g.inc) % U64_CARD = g.seq + g.inc := by
  have h : g.seq ≤ MAX_SEQ ∧ g.inc < MAX_INC := by
    rcases reachable_inv hg with rfl | ⟨_, _, h3, _, h5⟩
    · exact ⟨le_refl _, by decide⟩
    · exact ⟨Nat.le_of_lt h3, h5⟩
  have hbound : MAX_SEQ + MAX_INC < U64_CARD := by decide
  have hlt : g.seq + g.inc < U64_CARD := by omega
  exact ⟨h.1, h.2, hlt, Nat.mod_eq_of_lt hlt⟩

/-- C6 witness: the no-overflow theorem evaluated at the fresh generator. -/
theorem nuid_no_overflow_witness :
    NUID.new.seq + NUID.new.inc < U64_CARD :=
  (nuid_no_overflow NUID.new Reachable.base).2.2.1

/-- C7: every `Alphanumeric` byte taken modulo 62 lands in `{3..28} ∪ {35..60}`,
so a prefix byte written by `randomize_prefix` is always an alphabet symbol but
never one of the ten symbols 0, 1, 2, T, U, V, W, X, Y, z; only 52 of the 62
symbols are reachable, and the symbols m through v each arise from two distinct
source characters. -/
theorem nuid_prefix_alphabet_subset :
    (∀ c ∈ alnumCharset,
        3 ≤ c % BASE ∧ c % BASE ≤ 28 ∨ 35 ≤ c % BASE ∧ c % BASE ≤ 60) ∧
    (∀ (r : Nat → Nat) (g : NUID), ∀ b ∈ ( randomize_prefix r g).pre,
        b ∈ ALPHABET ∧ b ∉ forbiddenPrefixBytes) ∧
    (alnumCharset.map fun c => ALPHABET.getD (c % BASE) 0).dedup.length = 52 ∧
    (∀ b ∈ [109, 110, 111, 112, 113, 114, 115, 116, 117, 118],
        ∃ c1 ∈ alnumCharset, ∃ c2 ∈ alnumCharset,
          c1 ≠ c2 ∧ ALPHABET.getD (c1 % BASE) 0 = b ∧ ALPHABET.getD (c2 % BASE) 0 = b) := by
  refine ⟨by decide, ?_, by decide, by decide⟩
  rintro r g b hb
  rw [ randomize_prefix_pre] at hb
  rcases List.mem_map.1 hb with ⟨i, _, rfl⟩
  exact alnum_image_ok _ (sample_mem (r i))

/-- C7 witness: the prefix-image theorem applied to a concrete draw, checked on
the byte 51 it produces. -/
theorem nuid_prefix_alphabet_subset_witness :
    51 ∈ ( randomize_prefix rc0.pr NUID.new).pre ∧ 51 ∉ forbiddenPrefixBytes :=
  ⟨by decide,
    (nuid_prefix_alphabet_subset.2.1 rc0.pr NUID.new 51 (by decide)).2⟩

/-- C8: the trailing 10 bytes are an injective base-62 image of the sequence
space: decoding them by alphabet index recovers exactly the generator's
post-call sequence field, and decoding inverts the encoding loop on all of
`[0, 62^10)`. -/
theorem nuid_sequence_recoverable (r : RandSrc) (g : NUID) (h : g.pre.length = PRE_LEN) :
    decodeBase62 ((NUID.next r g).2.drop PRE_LEN) = (NUID.next r g).1.seq ∧
    ∀ s < BASE ^ 10, decodeBase62 (encLoop 10 s) = s := by
  constructor
  · have hlen := next_pre_length r g h
    have h3 := emit_snd_drop (NUID.next r g).1 hlen
    rw [← next_eq_emit_fst r g] at h3
    rw [h3]
    apply decode_encLoop
    have hseq := next_seq_lt r g
    rw [max_seq_eq_pow] at hseq
    exact hseq
  · intro s hs
    exact decode_encLoop 10 s hs

/-- C8 witness: decode of the emitted tail recovers the post-call sequence for
the fresh generator under a concrete draw. -/
theorem nuid_sequence_recoverable_witness :
    NUID.new.pre.length = PRE_LEN ∧
    decodeBase62 ((NUID.next rc0 NUID.new).2.drop PRE_LEN) = (NUID.next rc0 NUID.new).1.seq :=
  ⟨by decide, (nuid_sequence_recoverable rc0 NUID.new (by decide)).1⟩

/-- C9: `NUID::next` is deterministic on the non-rollover path — with the same
state and `sequence + increment < MAX_SEQ` the result is independent of the
random source — and every call returns a full 22-byte value. -/
theorem nuid_next_deterministic (r r' : RandSrc) (g : NUID)
    (hlen : g.pre.length = PRE_LEN) (h : g.seq + g.inc < MAX_SEQ) :
    NUID.next r g = NUID.next r' g ∧ (NUID.next r g).2.length = TOTAL_LEN := by
  have hmod : (g.seq + g.inc) % U64_CARD = g.seq + g.inc :=
    Nat.mod_eq_of_lt (lt_trans h max_seq_lt_u64)
  have hc : (g.seq + g.inc) % U64_CARD < MAX_SEQ := by
    rw [hmod]
    exact h
  refine ⟨?_, ?_⟩
  · rw [next_no_rollover r g hc, next_no_rollover r' g hc]
  · have hl := emit_snd_length (NUID.next r g).1 (next_pre_length r g hlen)
    rwa [← next_eq_emit_fst r g] at hl

/-- C9 witness: determinism evaluated on a concrete small state under two
different random draws. -/
theorem nuid_next_deterministic_witness :
    gSmall.seq + gSmall.inc < MAX_SEQ ∧ NUID.next rc0 gSmall = NUID.next rc1 gSmall :=
  ⟨by decide, (nuid_next_deterministic rc0 rc1 gSmall (by decide) (by decide)).1⟩
